import Mathlib

/-!
Verification of the line/column tracking library (`linetrack`).

The library offers two components over a shared byte-buffer model:

* `LineCache` — a precomputed index of newline offsets, answering
  random-access (line, column) queries (`LineCache.new` / `LineCache.run`);
* a forward position tracker — an (offset, line, column) cursor advanced
  monotonically over the buffer (`PosTracker.update`).

Bytes are modelled as natural numbers (`10` is the newline byte, `13` the
carriage return); buffers are lists of bytes; `usize` values are `Nat`.
Fallible operations return an explicit result type; the out-of-bounds
slice panic of the source is modelled as an explicit result constructor.
-/

/-- The line cache: a list of `(line_number, end_offset)` pairs, one per
newline byte of the indexed buffer (mirrors the `LineCache` tuple struct,
whose single field is the vector of pairs). -/
structure LineCache where
  entries : List (Nat × Nat)
deriving Repr, DecidableEq

/-- Construction of the line cache: enumerate the bytes, keep the newline
bytes, enumerate the survivors, and record `(lnr + 1, bkpt)` for the
`lnr`-th newline sitting at byte offset `bkpt`. -/
def LineCache.new (s : List Nat) : LineCache :=
  ⟨((s.enum.filter (fun p => p.2 == 10)).enum.map (fun q => (q.1 + 1, q.2.1)))⟩

/-- Lookup: take the entries whose `end_offset` is at most `pos`, keep the
last one (defaulting to `(0, 0)`), and answer `(lnr, pos - bkpt)`. -/
def LineCache.run (c : LineCache) (pos : Nat) : Nat × Nat :=
  let p := (c.entries.takeWhile (fun q => decide (q.2 ≤ pos))).getLastD (0, 0)
  (p.1, pos - p.2)

/-- Result of a tracker update.  `err` models the `None` returned on a
non-monotonic move; `panicked` models the Rust slice-indexing panic raised
when the requested offset exceeds the buffer length; `ok slc ldif cdif`
models `Some((slc, ldif, cdif))`. -/
inductive Ret where
  | err : Ret
  | panicked : Ret
  | ok : List Nat → Nat → Nat → Ret
deriving Repr, DecidableEq

/-- One iteration of the scan loop of the tracker update: on a newline the
column delta is reset and the line delta incremented; any other byte except
carriage return increments the column delta. -/
def scanStep (lc : Nat × Nat) (b : Nat) : Nat × Nat :=
  if b = 10 then (lc.1 + 1, 0)
  else if b ≠ 13 then (lc.1, lc.2 + 1)
  else lc

/-- The forward position tracker state (source type `PosTrackerExtern`,
with the suffix dropped): current byte offset, zero-based line, and
zero-based column, all starting at zero. -/
structure PosTracker where
  offset : Nat := 0
  line : Nat := 0
  column : Nat := 0
deriving Repr, DecidableEq

/-- The tracker update.  `new_offset.checked_sub(self.offset)` fails on a
backward move; the slice `dat[self.offset..new_offset]` is scanned with
`scanStep`; then the offset is replaced, the line delta added, the column
reset when a newline was crossed, and the column delta added.  The state on
`err`/`panicked` is the unchanged input state. -/
def PosTracker.update (t : PosTracker) (dat : List Nat) (new_offset : Nat) :
    PosTracker × Ret :=
  if new_offset < t.offset then (t, Ret.err)
  else if dat.length < new_offset then (t, Ret.panicked)
  else
    let slc := (dat.drop t.offset).take (new_offset - t.offset)
    let s := slc.foldl scanStep (0, 0)
    (⟨new_offset, t.line + s.1, (if s.1 ≠ 0 then 0 else t.column) + s.2⟩,
      Ret.ok slc s.1 s.2)

/-- Advancing a tracker through a whole sequence of offsets, keeping only
the state (the per-call results are discarded). -/
def updateChain (dat : List Nat) (ps : List Nat) (t : PosTracker) : PosTracker :=
  ps.foldl (fun acc p => (acc.update dat p).1) t

/-- The offsets of the newline bytes of a buffer, counting positions from
`k`. -/
def nlPosFrom : Nat → List Nat → List Nat
  | _, [] => []
  | k, b :: rest => if b = 10 then k :: nlPosFrom (k + 1) rest else nlPosFrom (k + 1) rest

/-- The zero-based offsets of the newline bytes of a buffer. -/
def nlPos (s : List Nat) : List Nat := nlPosFrom 0 s

/-- The line cache contents determined by a list of newline offsets,
numbering lines from `b + 1`. -/
def cacheFrom : Nat → List Nat → List (Nat × Nat)
  | _, [] => []
  | b, o :: rest => (b + 1, o) :: cacheFrom (b + 1) rest

/-- A byte advances the column exactly when it is neither a newline nor a
carriage return. -/
def isCol (b : Nat) : Bool := decide (b ≠ 10) && decide (b ≠ 13)

/-- The suffix of a buffer after its last newline byte (the whole buffer
when it has no newline). -/
def afterLastNl (l : List Nat) : List Nat :=
  (l.reverse.takeWhile (fun b => decide (b ≠ 10))).reverse

example : LineCache.new [97, 10, 98] = ⟨[(1, 1)]⟩ := by decide
example : LineCache.run (LineCache.new [97, 10, 98]) 1 = (1, 0) := by decide
example : LineCache.run (LineCache.new [97, 10, 98]) 2 = (1, 1) := by decide
example : (PosTracker.update ⟨0, 0, 0⟩ [97, 10, 98] 3).1 = ⟨3, 1, 1⟩ := by decide
example : (PosTracker.update ⟨0, 0, 0⟩ [] 1).2 = Ret.panicked := by decide
example : nlPos [97, 10, 98, 10] = [1, 3] := by decide
example : afterLastNl [97, 10, 98, 99] = [98, 99] := by decide

lemma enumFrom_filter_nl (s : List Nat) : ∀ k : Nat,
    (List.enumFrom k s).filter (fun p => p.2 == 10) =
      (nlPosFrom k s).map (fun o => (o, 10)) := by
  induction s with
  | nil => intro k; rfl
  | cons b rest ih =>
    intro k
    by_cases hb : b = 10
    · subst hb
      simp [List.enumFrom, List.filter_cons, nlPosFrom, ih]
    · simp [List.enumFrom, List.filter_cons, nlPosFrom, hb, ih]

lemma enumFrom_map_pair (os : List Nat) : ∀ b : Nat,
    ((os.map (fun o => (o, 10))).enumFrom b).map (fun q => (q.1 + 1, q.2.1)) =
      cacheFrom b os := by
  induction os with
  | nil => intro b; rfl
  | cons o rest ih =>
    intro b
    simp only [List.map_cons, List.enumFrom, cacheFrom, List.map]
    exact congrArg _ (ih (b + 1))

lemma new_eq (s : List Nat) : LineCache.new s = ⟨cacheFrom 0 (nlPos s)⟩ := by
  unfold LineCache.new nlPos
  rw [show (List.enum (α := Nat)) = List.enumFrom 0 from rfl,
    enumFrom_filter_nl s 0,
    show (List.enum (α := Nat × Nat)) = List.enumFrom 0 from rfl,
    enumFrom_map_pair]

lemma takeWhile_cacheFrom (pos : Nat) (os : List Nat) : ∀ b : Nat,
    (cacheFrom b os).takeWhile (fun q => decide (q.2 ≤ pos)) =
      cacheFrom b (os.takeWhile (fun o => decide (o ≤ pos))) := by
  induction os with
  | nil => intro b; rfl
  | cons o rest ih =>
    intro b
    by_cases ho : o ≤ pos
    · simp [cacheFrom, List.takeWhile_cons, ho, ih]
    · simp [cacheFrom, List.takeWhile_cons, ho]

lemma getLastD_default_irrel (l : List Nat) (h : l ≠ []) (d d' : Nat) :
    l.getLastD d = l.getLastD d' := by
  cases l with
  | nil => exact absurd rfl h
  | cons a l => rw [List.getLastD_cons, List.getLastD_cons]

lemma getLastD_cacheFrom (os : List Nat) (h : os ≠ []) : ∀ (b : Nat) (d : Nat × Nat),
    (cacheFrom b os).getLastD d = (b + os.length, os.getLastD 0) := by
  induction os with
  | nil => exact absurd rfl h
  | cons o rest ih =>
    intro b d
    rw [show cacheFrom b (o :: rest) = (b + 1, o) :: cacheFrom (b + 1) rest from rfl,
      List.getLastD_cons]
    cases rest with
    | nil =>
      rw [show cacheFrom (b + 1) ([] : List Nat) = [] from rfl]
      simp [List.getLastD_cons]
    | cons o2 rest2 =>
      rw [ih (by simp) (b + 1) (b + 1, o)]
      rw [show (o :: o2 :: rest2).getLastD 0 = (o2 :: rest2).getLastD o from
          List.getLastD_cons ..,
        getLastD_default_irrel (o2 :: rest2) (by simp) o 0]
      simp only [Prod.mk.injEq, List.length_cons]
      exact ⟨by omega, trivial⟩

lemma run_char (s : List Nat) (pos : Nat) :
    LineCache.run (LineCache.new s) pos =
      (((nlPos s).takeWhile (fun o => decide (o ≤ pos))).length,
        pos - ((nlPos s).takeWhile (fun o => decide (o ≤ pos))).getLastD 0) := by
  rw [new_eq]
  unfold LineCache.run
  simp only [takeWhile_cacheFrom]
  rcases h : (nlPos s).takeWhile (fun o => decide (o ≤ pos)) with _ | ⟨o, rest⟩
  · simp [cacheFrom]
  · rw [getLastD_cacheFrom _ (by simp) 0 (0, 0)]
    simp

lemma nlPosFrom_ge (s : List Nat) : ∀ k : Nat, ∀ o ∈ nlPosFrom k s, k ≤ o := by
  induction s with
  | nil => intro k o ho; simp [nlPosFrom] at ho
  | cons b rest ih =>
    intro k o ho
    by_cases hb : b = 10
    · simp only [nlPosFrom, if_pos hb, List.mem_cons] at ho
      rcases ho with rfl | ho
      · exact le_refl o
      · exact le_trans (Nat.le_succ k) (ih (k + 1) o ho)
    · simp only [nlPosFrom, if_neg hb] at ho
      exact le_trans (Nat.le_succ k) (ih (k + 1) o ho)

lemma nlPosFrom_lt (s : List Nat) : ∀ k : Nat, ∀ o ∈ nlPosFrom k s, o < k + s.length := by
  induction s with
  | nil => intro k o ho; simp [nlPosFrom] at ho
  | cons b rest ih =>
    intro k o ho
    by_cases hb : b = 10
    · simp only [nlPosFrom, if_pos hb, List.mem_cons] at ho
      rcases ho with rfl | ho
      · simp
      · have := ih (k + 1) o ho
        simp only [List.length_cons]
        omega
    · simp only [nlPosFrom, if_neg hb] at ho
      have := ih (k + 1) o ho
      simp only [List.length_cons]
      omega

lemma nlPosFrom_sorted (s : List Nat) : ∀ k : Nat,
    List.Pairwise (· < ·) (nlPosFrom k s) := by
  induction s with
  | nil => intro k; simp [nlPosFrom]
  | cons b rest ih =>
    intro k
    by_cases hb : b = 10
    · simp only [nlPosFrom, if_pos hb]
      refine List.Pairwise.cons ?_ (ih (k + 1))
      intro o ho
      exact lt_of_lt_of_le (Nat.lt_succ_self k) (nlPosFrom_ge rest (k + 1) o ho)
    · simp only [nlPosFrom, if_neg hb]
      exact ih (k + 1)

lemma nlPosFrom_length (s : List Nat) : ∀ k : Nat,
    (nlPosFrom k s).length = s.countP (fun b => decide (b = 10)) := by
  induction s with
  | nil => intro k; rfl
  | cons b rest ih =>
    intro k
    by_cases hb : b = 10
    · simp [nlPosFrom, if_pos hb, List.countP_cons, hb, ih]
    · simp [nlPosFrom, if_neg hb, List.countP_cons, hb, ih]

lemma nlPosFrom_append (u w : List Nat) : ∀ k : Nat,
    nlPosFrom k (u ++ w) = nlPosFrom k u ++ nlPosFrom (k + u.length) w := by
  induction u with
  | nil => intro k; simp [nlPosFrom]
  | cons b rest ih =>
    intro k
    have ih' := ih (k + 1)
    rw [show k + 1 + rest.length = k + (rest.length + 1) from by omega] at ih'
    by_cases hb : b = 10
    · simp only [List.cons_append, nlPosFrom, if_pos hb, List.length_cons]
      exact congrArg (k :: ·) ih'
    · simp only [List.cons_append, nlPosFrom, if_neg hb, List.length_cons]
      exact ih'

lemma nlPosFrom_shift (s : List Nat) : ∀ k : Nat,
    nlPosFrom (k + 1) s = (nlPosFrom k s).map (fun o => o + 1) := by
  induction s with
  | nil => intro k; rfl
  | cons b rest ih =>
    intro k
    by_cases hb : b = 10
    · simp [nlPosFrom, if_pos hb, ih (k + 1)]
    · simp [nlPosFrom, if_neg hb, ih (k + 1)]

lemma takeWhile_false_of_head {p : Nat → Bool} :
    ∀ l : List Nat, (∀ a ∈ l, p a = false) → l.takeWhile p = [] := by
  intro l hl
  cases l with
  | nil => rfl
  | cons a l => simp [List.takeWhile_cons, hl a (by simp)]

lemma nlPosFrom_take (s : List Nat) : ∀ (k n : Nat),
    nlPosFrom k (s.take n) = (nlPosFrom k s).takeWhile (fun o => decide (o < k + n)) := by
  induction s with
  | nil => intro k n; simp [nlPosFrom, List.take_nil]
  | cons b rest ih =>
    intro k n
    cases n with
    | zero =>
      simp only [List.take_zero, Nat.add_zero]
      rw [show nlPosFrom k ([] : List Nat) = [] from rfl]
      refine (takeWhile_false_of_head _ ?_).symm
      intro a ha
      simp [Nat.not_lt.mpr (nlPosFrom_ge (b :: rest) k a ha)]
    | succ m =>
      by_cases hb : b = 10
      · simp only [List.take_succ_cons, nlPosFrom, if_pos hb, List.takeWhile_cons]
        rw [show (decide (k < k + (m + 1))) = true from by simp]
        rw [ih (k + 1) m, show k + 1 + m = k + (m + 1) from by omega]
        simp
      · simp only [List.take_succ_cons, nlPosFrom, if_neg hb]
        rw [ih (k + 1) m, show k + 1 + m = k + (m + 1) from by omega]

lemma take_succ_getD : ∀ (l : List Nat) (n : Nat), n < l.length →
    l.take (n + 1) = l.take n ++ [l.getD n 0] := by
  intro l
  induction l with
  | nil => intro n hn; simp at hn
  | cons a l ih =>
    intro n hn
    cases n with
    | zero => simp
    | succ m =>
      simp only [List.take_succ_cons, List.getD_cons_succ, List.cons_append]
      rw [ih m (by simpa using hn)]

lemma takeWhile_congr {p q : Nat → Bool} : ∀ l : List Nat, (∀ a ∈ l, p a = q a) →
    l.takeWhile p = l.takeWhile q := by
  intro l
  induction l with
  | nil => intro h; rfl
  | cons a l ih =>
    intro h
    rw [List.takeWhile_cons, List.takeWhile_cons, h a (by simp)]
    cases hq : q a
    · rfl
    · rw [ih (fun a ha => h a (by simp [ha]))]

lemma takeWhile_append_all {p : Nat → Bool} : ∀ A : List Nat, ∀ C : List Nat,
    (∀ a ∈ A, p a = true) → (A ++ C).takeWhile p = A ++ C.takeWhile p := by
  intro A
  induction A with
  | nil => intro C h; rfl
  | cons a A ih =>
    intro C h
    rw [List.cons_append, List.takeWhile_cons, h a (by simp), List.cons_append,
      ih C (fun x hx => h x (by simp [hx]))]
    simp

lemma takeWhile_append_stop {p : Nat → Bool} (c : Nat) (C : List Nat) (hc : p c = false) :
    ∀ A : List Nat, (A ++ c :: C).takeWhile p = A.takeWhile p := by
  intro A
  induction A with
  | nil => simp [List.takeWhile_cons, hc]
  | cons a A ih =>
    rw [List.cons_append, List.takeWhile_cons, List.takeWhile_cons]
    cases hp : p a
    · rfl
    · rw [ih]

lemma takeWhile_map_add_one (p : Nat → Bool) : ∀ l : List Nat,
    (l.map (fun o => o + 1)).takeWhile p =
      (l.takeWhile (fun o => p (o + 1))).map (fun o => o + 1) := by
  intro l
  induction l with
  | nil => rfl
  | cons a l ih =>
    simp only [List.map_cons, List.takeWhile_cons]
    cases hp : p (a + 1)
    · rfl
    · simp [ih]

lemma length_take_of_le (l : List Nat) (n : Nat) (h : n ≤ l.length) :
    (l.take n).length = n := by
  simp [List.length_take]; omega

lemma takeWhile_nlPos_no_nl (s : List Nat) (pos : Nat) (h1 : pos ≤ s.length)
    (h2 : pos < s.length → s.getD pos 0 ≠ 10) :
    (nlPos s).takeWhile (fun o => decide (o ≤ pos)) = nlPos (s.take pos) := by
  unfold nlPos
  have hcongr : (nlPosFrom 0 s).takeWhile (fun o => decide (o ≤ pos)) =
      (nlPosFrom 0 s).takeWhile (fun o => decide (o < 0 + (pos + 1))) := by
    refine takeWhile_congr _ (fun a _ => ?_)
    exact decide_eq_decide.mpr (by omega)
  rw [hcongr, ← nlPosFrom_take]
  rcases Nat.lt_or_ge pos s.length with hlt | hge
  · rw [take_succ_getD s pos hlt]
    rw [nlPosFrom_append]
    rw [show nlPosFrom (0 + (s.take pos).length) [s.getD pos 0] =
        if s.getD pos 0 = 10 then [0 + (s.take pos).length] else [] from rfl,
      if_neg (h2 hlt)]
    simp
  · have hlen : pos = s.length := le_antisymm h1 hge
    subst hlen
    rw [List.take_of_length_le (by omega), List.take_of_length_le (by omega)]

lemma takeWhile_nlPos_nl (s : List Nat) (pos : Nat) (h1 : pos < s.length)
    (h2 : s.getD pos 0 = 10) :
    (nlPos s).takeWhile (fun o => decide (o ≤ pos)) = nlPos (s.take pos) ++ [pos] := by
  unfold nlPos
  have hcongr : (nlPosFrom 0 s).takeWhile (fun o => decide (o ≤ pos)) =
      (nlPosFrom 0 s).takeWhile (fun o => decide (o < 0 + (pos + 1))) := by
    refine takeWhile_congr _ (fun a _ => ?_)
    exact decide_eq_decide.mpr (by omega)
  rw [hcongr, ← nlPosFrom_take, take_succ_getD s pos h1]
  rw [nlPosFrom_append]
  rw [show nlPosFrom (0 + (s.take pos).length) [s.getD pos 0] =
      if s.getD pos 0 = 10 then [0 + (s.take pos).length] else [] from rfl,
    if_pos h2]
  rw [length_take_of_le s pos (le_of_lt h1)]
  simp

lemma scan_shift : ∀ (l : List Nat) (a c0 : Nat),
    l.foldl scanStep (a, c0) =
      (a + (l.foldl scanStep (0, 0)).1,
        (if (l.foldl scanStep (0, 0)).1 ≠ 0 then 0 else c0) + (l.foldl scanStep (0, 0)).2) := by
  intro l
  induction l with
  | nil => intro a c0; simp
  | cons b rest ih =>
    intro a c0
    by_cases hb : b = 10
    · subst hb
      show List.foldl scanStep (a + 1, 0) rest =
        (a + (List.foldl scanStep (1, 0) rest).1,
          (if (List.foldl scanStep (1, 0) rest).1 ≠ 0 then 0 else c0) +
            (List.foldl scanStep (1, 0) rest).2)
      simp only [ih (a + 1) 0, ih 1 0]
      rcases h : rest.foldl scanStep (0, 0) with ⟨L, C⟩
      simp only [h, Prod.mk.injEq]
      constructor
      · omega
      · split_ifs <;> omega
    · by_cases hc : b = 13
      · subst hc
        show List.foldl scanStep (a, c0) rest =
          (a + (List.foldl scanStep (0, 0) rest).1,
            (if (List.foldl scanStep (0, 0) rest).1 ≠ 0 then 0 else c0) +
              (List.foldl scanStep (0, 0) rest).2)
        exact ih a c0
      · have e1 : scanStep (a, c0) b = (a, c0 + 1) := by simp [scanStep, hb, hc]
        have e2 : scanStep (0, 0) b = (0, 1) := by simp [scanStep, hb, hc]
        simp only [List.foldl_cons, e1, e2, ih a (c0 + 1), ih 0 1]
        rcases h : rest.foldl scanStep (0, 0) with ⟨L, C⟩
        simp only [h, Prod.mk.injEq]
        constructor
        · omega
        · split_ifs <;> omega

lemma afterLastNl_concat_nl (l : List Nat) : afterLastNl (l ++ [10]) = [] := by
  unfold afterLastNl
  rw [List.reverse_append]
  simp [List.takeWhile_cons]

lemma afterLastNl_concat_other (l : List Nat) (b : Nat) (h : b ≠ 10) :
    afterLastNl (l ++ [b]) = afterLastNl l ++ [b] := by
  unfold afterLastNl
  rw [List.reverse_append]
  simp only [List.reverse_cons, List.reverse_nil, List.nil_append, List.singleton_append,
    List.takeWhile_cons]
  rw [show (decide (b ≠ 10)) = true from by simp [h]]
  simp

lemma scan_eq : ∀ l : List Nat,
    l.foldl scanStep (0, 0) =
      (l.countP (fun b => decide (b = 10)), (afterLastNl l).countP isCol) := by
  intro l
  induction l using List.reverseRecOn with
  | nil => rfl
  | append_singleton l b ih =>
    rw [List.foldl_append, ih]
    simp only [List.foldl_cons, List.foldl_nil]
    by_cases hb : b = 10
    · subst hb
      rw [afterLastNl_concat_nl]
      simp [scanStep, List.countP_append, List.countP_cons]
    · by_cases hc : b = 13
      · subst hc
        rw [afterLastNl_concat_other l 13 (by omega)]
        simp [scanStep, List.countP_append, List.countP_cons, isCol]
      · rw [afterLastNl_concat_other l b hb]
        simp [scanStep, List.countP_append, List.countP_cons, isCol, hb, hc]

lemma mem_afterLastNl (l : List Nat) : ∀ b ∈ afterLastNl l, b ≠ 10 := by
  intro b hb
  unfold afterLastNl at hb
  rw [List.mem_reverse] at hb
  have h := List.mem_takeWhile_imp hb
  simpa using h

lemma afterLastNl_no_nl (l : List Nat) (h : ∀ b ∈ l, b ≠ 10) : afterLastNl l = l := by
  unfold afterLastNl
  have e : (l.reverse ++ ([] : List Nat)).takeWhile (fun b => decide (b ≠ 10)) =
      l.reverse ++ ([] : List Nat).takeWhile (fun b => decide (b ≠ 10)) :=
    takeWhile_append_all _ _ (fun a ha => by simp [h a (List.mem_reverse.mp ha)])
  simp only [List.takeWhile_nil, List.append_nil] at e
  rw [e, List.reverse_reverse]

lemma countP_split_no_nl : ∀ l : List Nat, (∀ b ∈ l, b ≠ 10) →
    l.countP isCol + l.countP (fun b => decide (b = 13)) = l.length := by
  intro l
  induction l with
  | nil => intro h; rfl
  | cons b rest ih =>
    intro h
    have hb := h b (by simp)
    have ih' := ih (fun x hx => h x (by simp [hx]))
    by_cases hc : b = 13
    · subst hc
      simp only [List.countP_cons, List.length_cons]
      rw [show (isCol 13) = false from by simp [isCol]]
      simp
      omega
    · simp only [List.countP_cons, List.length_cons]
      rw [show (isCol b) = true from by simp [isCol, hb, hc]]
      simp [hc]
      omega

lemma getLastD_concat_val (a : Nat) : ∀ (xs : List Nat) (d : Nat),
    (xs ++ [a]).getLastD d = a := by
  intro xs
  induction xs with
  | nil => intro d; rfl
  | cons x xs ih => intro d; rw [List.cons_append, List.getLastD_cons, ih]

lemma nlPos_last_split : ∀ l : List Nat, nlPos l ≠ [] →
    (nlPos l).getLastD 0 + 1 + (afterLastNl l).length = l.length := by
  intro l
  induction l using List.reverseRecOn with
  | nil => intro h; exact absurd rfl h
  | append_singleton l b ih =>
    intro h
    by_cases hb : b = 10
    · subst hb
      rw [show nlPos (l ++ [10]) = nlPosFrom 0 (l ++ [10]) from rfl, nlPosFrom_append]
      rw [show nlPosFrom (0 + l.length) [10] = [0 + l.length] from rfl]
      rw [getLastD_concat_val, afterLastNl_concat_nl]
      simp
    · have hnl : nlPos (l ++ [b]) = nlPos l := by
        rw [show nlPos (l ++ [b]) = nlPosFrom 0 (l ++ [b]) from rfl, nlPosFrom_append]
        rw [show nlPosFrom (0 + l.length) [b] =
            if b = 10 then [0 + l.length] else [] from rfl, if_neg hb]
        simp [nlPos]
      rw [hnl] at h ⊢
      rw [afterLastNl_concat_other l b hb]
      have := ih h
      simp only [List.length_append, List.length_cons, List.length_nil]
      omega

/-- The state change of a successful tracker update, as a function of the
scanned slice. -/
def applyScan (t : PosTracker) (slc : List Nat) (n : Nat) : PosTracker :=
  ⟨n, t.line + (slc.foldl scanStep (0, 0)).1,
    (if (slc.foldl scanStep (0, 0)).1 ≠ 0 then 0 else t.column) +
      (slc.foldl scanStep (0, 0)).2⟩

lemma update_ok (t : PosTracker) (dat : List Nat) (n : Nat)
    (h1 : t.offset ≤ n) (h2 : n ≤ dat.length) :
    t.update dat n =
      (applyScan t ((dat.drop t.offset).take (n - t.offset)) n,
        Ret.ok ((dat.drop t.offset).take (n - t.offset))
          (((dat.drop t.offset).take (n - t.offset)).foldl scanStep (0, 0)).1
          (((dat.drop t.offset).take (n - t.offset)).foldl scanStep (0, 0)).2) := by
  unfold PosTracker.update applyScan
  rw [if_neg (by omega), if_neg (by omega)]

lemma applyScan_append (t : PosTracker) (s1 s2 : List Nat) (m n : Nat) :
    applyScan (applyScan t s1 m) s2 n = applyScan t (s1 ++ s2) n := by
  unfold applyScan
  simp only [List.foldl_append]
  rcases h1 : s1.foldl scanStep (0, 0) with ⟨L1, C1⟩
  simp only [h1, scan_shift s2 L1 C1]
  rcases h2 : s2.foldl scanStep (0, 0) with ⟨L2, C2⟩
  simp only [h2, PosTracker.mk.injEq]
  refine ⟨trivial, by omega, ?_⟩
  split_ifs <;> omega

lemma drop_take_split (dat : List Nat) (o m n : Nat) (h1 : o ≤ m) (h2 : m ≤ n) :
    (dat.drop o).take (m - o) ++ (dat.drop m).take (n - m) = (dat.drop o).take (n - o) := by
  rw [show n - o = (m - o) + (n - m) from by omega, List.take_add]
  congr 1
  rw [List.drop_drop, show o + (m - o) = m from by omega]

lemma update_trans (t : PosTracker) (dat : List Nat) (m n : Nat)
    (h1 : t.offset ≤ m) (h2 : m ≤ n) (hm : m ≤ dat.length) (hn : n ≤ dat.length) :
    ((t.update dat m).1.update dat n).1 = (t.update dat n).1 := by
  rw [update_ok t dat m h1 hm]
  rw [show ((applyScan t ((dat.drop t.offset).take (m - t.offset)) m,
      Ret.ok ((dat.drop t.offset).take (m - t.offset))
        (((dat.drop t.offset).take (m - t.offset)).foldl scanStep (0, 0)).1
        (((dat.drop t.offset).take (m - t.offset)).foldl scanStep (0, 0)).2)).1 =
    applyScan t ((dat.drop t.offset).take (m - t.offset)) m from rfl]
  rw [update_ok (applyScan t ((dat.drop t.offset).take (m - t.offset)) m) dat n h2 hn]
  rw [update_ok t dat n (le_trans h1 h2) hn]
  show applyScan (applyScan t ((dat.drop t.offset).take (m - t.offset)) m)
      ((dat.drop m).take (n - m)) n = _
  rw [applyScan_append]
  rw [drop_take_split dat t.offset m n h1 h2]

lemma chain_le_getLastD : ∀ (ps : List Nat) (a : Nat),
    List.Chain (· ≤ ·) a ps → a ≤ ps.getLastD a := by
  intro ps
  induction ps with
  | nil => intro a _; exact le_refl a
  | cons p ps ih =>
    intro a h
    cases h with
    | cons hap hch =>
      rw [List.getLastD_cons]
      exact le_trans hap (ih p hch)

lemma mem_of_getLastD : ∀ (ps : List Nat) (a : Nat), ps ≠ [] → ps.getLastD a ∈ ps := by
  intro ps
  induction ps with
  | nil => intro a h; exact absurd rfl h
  | cons p ps ih =>
    intro a _
    rw [List.getLastD_cons]
    cases ps with
    | nil => simp
    | cons q ps2 => exact List.mem_cons_of_mem p (ih p (by simp))

lemma update_self (t : PosTracker) (dat : List Nat) :
    (t.update dat t.offset).1 = t := by
  unfold PosTracker.update
  rw [if_neg (lt_irrefl _)]
  by_cases h : dat.length < t.offset
  · rw [if_pos h]
  · rw [if_neg h]
    show (⟨t.offset, t.line + _, _⟩ : PosTracker) = t
    rw [show t.offset - t.offset = 0 from by omega]
    simp only [List.take_zero, List.foldl_nil]
    rfl

lemma update_offset (t : PosTracker) (dat : List Nat) (p : Nat)
    (h1 : t.offset ≤ p) (h2 : p ≤ dat.length) : ((t.update dat p).1).offset = p := by
  rw [update_ok t dat p h1 h2]
  rfl

lemma updateChain_eq (dat : List Nat) : ∀ (ps : List Nat) (t : PosTracker),
    List.Chain (· ≤ ·) t.offset ps → (∀ p ∈ ps, p ≤ dat.length) →
    updateChain dat ps t = (t.update dat (ps.getLastD t.offset)).1 := by
  intro ps
  induction ps with
  | nil =>
    intro t _ _
    unfold updateChain
    rw [List.foldl_nil, show ([] : List Nat).getLastD t.offset = t.offset from rfl,
      update_self]
  | cons p ps ih =>
    intro t hch hlen
    cases hch with
    | cons hap hch =>
      have hp : p ≤ dat.length := hlen p (by simp)
      have hoff : ((t.update dat p).1).offset = p := update_offset t dat p hap hp
      have hlast : ps.getLastD p ≤ dat.length := by
        cases ps with
        | nil => exact hp
        | cons q ps2 =>
          exact hlen _ (List.mem_cons_of_mem p (mem_of_getLastD (q :: ps2) p (by simp)))
      unfold updateChain
      rw [List.foldl_cons]
      rw [show ps.foldl (fun acc q => (acc.update dat q).1) ((t.update dat p).1) =
        updateChain dat ps ((t.update dat p).1) from rfl]
      rw [ih ((t.update dat p).1) (by rw [hoff]; exact hch)
        (fun q hq => hlen q (by simp [hq]))]
      rw [hoff]
      rw [show (p :: ps).getLastD t.offset = ps.getLastD p from List.getLastD_cons ..]
      exact update_trans t dat p (ps.getLastD p) hap (chain_le_getLastD ps p hch) hp hlast

lemma track_state (dat : List Nat) (n : Nat) (h : n ≤ dat.length) :
    (PosTracker.update ⟨0, 0, 0⟩ dat n).1 =
      ⟨n, (dat.take n).countP (fun b => decide (b = 10)),
        (afterLastNl (dat.take n)).countP isCol⟩ := by
  rw [update_ok ⟨0, 0, 0⟩ dat n (Nat.zero_le n) h]
  show applyScan ⟨0, 0, 0⟩ ((dat.drop 0).take (n - 0)) n = _
  rw [List.drop_zero, Nat.sub_zero]
  unfold applyScan
  rw [scan_eq]
  simp only [PosTracker.mk.injEq]
  refine ⟨trivial, by omega, ?_⟩
  split_ifs <;> omega

lemma run_at_nl (s : List Nat) (pos : Nat) (h1 : pos < s.length) (h2 : s.getD pos 0 = 10) :
    LineCache.run (LineCache.new s) pos =
      ((s.take pos).countP (fun b => decide (b = 10)) + 1, 0) := by
  rw [run_char, takeWhile_nlPos_nl s pos h1 h2]
  rw [getLastD_concat_val, List.length_append]
  rw [show (nlPos (s.take pos)).length =
    (s.take pos).countP (fun b => decide (b = 10)) from nlPosFrom_length _ 0]
  simp

lemma run_not_nl (s : List Nat) (pos : Nat) (h1 : pos ≤ s.length)
    (h2 : pos < s.length → s.getD pos 0 ≠ 10) :
    LineCache.run (LineCache.new s) pos =
      ((s.take pos).countP (fun b => decide (b = 10)),
        pos - (nlPos (s.take pos)).getLastD 0) := by
  rw [run_char, takeWhile_nlPos_no_nl s pos h1 h2]
  rw [show (nlPos (s.take pos)).length =
    (s.take pos).countP (fun b => decide (b = 10)) from nlPosFrom_length _ 0]

lemma getLastD_mem_pair : ∀ (l : List (Nat × Nat)) (d : Nat × Nat), l ≠ [] →
    l.getLastD d ∈ l := by
  intro l
  induction l with
  | nil => intro d h; exact absurd rfl h
  | cons a l ih =>
    intro d _
    rw [List.getLastD_cons]
    cases l with
    | nil => simp
    | cons b l2 => exact List.mem_cons_of_mem a (ih a (by simp))

lemma sel_le (s : List Nat) (pos : Nat) :
    (((LineCache.new s).entries.takeWhile (fun q => decide (q.2 ≤ pos))).getLastD (0, 0)).2
      ≤ pos := by
  rcases h : (LineCache.new s).entries.takeWhile (fun q => decide (q.2 ≤ pos)) with _ | ⟨q, rest⟩
  · rw [h]
    simp
  · rw [h]
    have hmem2 : ((q :: rest).getLastD (0, 0)) ∈
        (LineCache.new s).entries.takeWhile (fun q => decide (q.2 ≤ pos)) := by
      rw [h]
      exact getLastD_mem_pair _ _ (by simp)
    have hp := List.mem_takeWhile_imp hmem2
    simpa using hp

lemma slice_eq_of_agree (dat1 dat2 : List Nat) (o n : Nat)
    (h1 : n ≤ dat1.length) (h2 : n ≤ dat2.length)
    (hag : ∀ j, o ≤ j → j < n → dat1.getD j 0 = dat2.getD j 0) :
    (dat1.drop o).take (n - o) = (dat2.drop o).take (n - o) := by
  by_cases ho : o ≤ n
  · apply List.ext_getElem
    · rw [List.length_take, List.length_take, List.length_drop, List.length_drop]
      omega
    · intro i hi1 hi2
      have hlt : o + i < n := by
        rw [List.length_take, List.length_drop] at hi1
        omega
      rw [List.getElem_take, List.getElem_take, List.getElem_drop, List.getElem_drop]
      rw [← List.getD_eq_getElem dat1 0 (by omega), ← List.getD_eq_getElem dat2 0 (by omega)]
      exact hag (o + i) (by omega) hlt
  · rw [show n - o = 0 from by omega]
    rfl

/-- Claim C2 (confirmed): calling the tracker update with a target offset
strictly below the current offset returns the non-monotonic-move failure
(the `None` of the source) and leaves offset, line and column unchanged —
the returned state is exactly the input state. -/
theorem C2_backward_reject (t : PosTracker) (dat : List Nat) (n : Nat)
    (h : n < t.offset) : t.update dat n = (t, Ret.err) := by
  unfold PosTracker.update
  rw [if_pos h]

theorem C2_backward_reject_witness :
    (3 : Nat) < (5 : Nat) ∧
      PosTracker.update ⟨5, 1, 2⟩ [97, 98, 99, 100, 101, 102] 3 = (⟨5, 1, 2⟩, Ret.err) :=
  ⟨by decide, C2_backward_reject ⟨5, 1, 2⟩ [97, 98, 99, 100, 101, 102] 3 (by decide)⟩

/-- Claim C3 (counterexample): the target offset 1 is at least the current
offset 0, yet updating over the empty buffer does not succeed — the slice
indexing panics (so success is not guaranteed by monotonicity alone). -/
theorem C3_cex :
    (PosTracker.update ⟨0, 0, 0⟩ [] 1).2 = Ret.panicked ∧ Ret.panicked ≠ Ret.err := by
  decide

/-- Claim C3 (corrected): the non-monotonic move is the only error, for
target offsets within the buffer: whenever the target offset is at least
the current offset and at most the buffer length, the update neither
errs nor panics. -/
theorem C3_success (t : PosTracker) (dat : List Nat) (n : Nat)
    (h1 : t.offset ≤ n) (h2 : n ≤ dat.length) :
    (t.update dat n).2 ≠ Ret.err ∧ (t.update dat n).2 ≠ Ret.panicked := by
  rw [update_ok t dat n h1 h2]
  exact ⟨by simp, by simp⟩

theorem C3_success_witness :
    (PosTracker.update ⟨0, 0, 0⟩ [97] 1).2 ≠ Ret.err ∧
      (PosTracker.update ⟨0, 0, 0⟩ [97] 1).2 ≠ Ret.panicked :=
  C3_success ⟨0, 0, 0⟩ [97] 1 (by decide) (by decide)

/-- Claim C9 (confirmed): the index is total — construction always succeeds
(the empty buffer yields an empty index), and for every position the entry
a lookup selects satisfies `bkpt ≤ pos`, so the subtraction `pos - bkpt` is
exact and never underflows. -/
theorem C9_index_total (s : List Nat) (pos : Nat) :
    (LineCache.new []).entries = [] ∧
      (((LineCache.new s).entries.takeWhile (fun q => decide (q.2 ≤ pos))).getLastD (0, 0)).2
        ≤ pos ∧
      (((LineCache.new s).entries.takeWhile (fun q => decide (q.2 ≤ pos))).getLastD (0, 0)).2
        + (LineCache.run (LineCache.new s) pos).2 = pos := by
  refine ⟨rfl, sel_le s pos, ?_⟩
  have hle := sel_le s pos
  have hr : (LineCache.run (LineCache.new s) pos).2 =
      pos - (((LineCache.new s).entries.takeWhile
        (fun q => decide (q.2 ≤ pos))).getLastD (0, 0)).2 := rfl
  rw [hr]
  omega

/-- Claim C10 (confirmed): the update depends only on the bytes of the
scanned range — two buffers that agree on every byte of
`[current offset, new_offset)` and both extend to `new_offset` give
identical results (state and returned triple alike). -/
theorem C10_scan_local (t : PosTracker) (dat1 dat2 : List Nat) (n : Nat)
    (h1 : n ≤ dat1.length) (h2 : n ≤ dat2.length)
    (hag : ∀ j, t.offset ≤ j → j < n → dat1.getD j 0 = dat2.getD j 0) :
    t.update dat1 n = t.update dat2 n := by
  by_cases hlt : n < t.offset
  · unfold PosTracker.update
    rw [if_pos hlt, if_pos hlt]
  · push_neg at hlt
    have hs := slice_eq_of_agree dat1 dat2 t.offset n h1 h2 hag
    rw [update_ok t dat1 n hlt h1, update_ok t dat2 n hlt h2, hs]

theorem C10_scan_local_witness :
    PosTracker.update ⟨1, 0, 1⟩ [97, 10, 98] 3 = PosTracker.update ⟨1, 0, 1⟩ [99, 10, 98] 3 :=
  C10_scan_local ⟨1, 0, 1⟩ [97, 10, 98] [99, 10, 98] 3 (by decide) (by decide)
    (by decide)

lemma takeWhile_eq_take_of_sorted : ∀ (os : List Nat) (j pos : Nat),
    List.Pairwise (· < ·) os → j < os.length → os.getD j 0 ≤ pos →
    (j + 1 < os.length → pos < os.getD (j + 1) 0) →
    os.takeWhile (fun o => decide (o ≤ pos)) = os.take (j + 1) := by
  intro os
  induction os with
  | nil => intro j pos _ hj _ _; simp at hj
  | cons o rest ih =>
    intro j pos hp hj hle hub
    cases j with
    | zero =>
      rw [List.getD_cons_zero] at hle
      rw [List.takeWhile_cons, show (decide (o ≤ pos)) = true from by simpa using hle]
      cases rest with
      | nil => simp
      | cons r rest2 =>
        have hub' : pos < r := by
          have h1 := hub (by simp)
          rwa [List.getD_cons_succ, List.getD_cons_zero] at h1
        rw [show List.takeWhile (fun o => decide (o ≤ pos)) (r :: rest2) = [] from by
          rw [List.takeWhile_cons,
            show (decide (r ≤ pos)) = false from by simp only [decide_eq_false_iff_not]; omega]
          simp]
        simp
    | succ j' =>
      rw [List.getD_cons_succ] at hle
      have hj' : j' < rest.length := by simpa using hj
      rcases List.pairwise_cons.mp hp with ⟨hall, hp'⟩
      have ho : o ≤ pos := by
        have hmem : rest.getD j' 0 ∈ rest := by
          rw [List.getD_eq_getElem rest 0 hj']
          exact List.getElem_mem hj'
        have := hall _ hmem
        omega
      rw [List.takeWhile_cons, show (decide (o ≤ pos)) = true from by simpa using ho]
      rw [List.take_succ_cons]
      have hub' : j' + 1 < rest.length → pos < rest.getD (j' + 1) 0 := by
        intro hlt
        have h1 := hub (by simpa using hlt)
        rwa [List.getD_cons_succ] at h1
      rw [ih j' pos hp' hj' hle hub']
      simp

lemma getLastD_take_getD : ∀ (os : List Nat) (j : Nat), j < os.length →
    (os.take (j + 1)).getLastD 0 = os.getD j 0 := by
  intro os
  induction os with
  | nil => intro j hj; simp at hj
  | cons o rest ih =>
    intro j hj
    cases j with
    | zero => simp [List.getD_cons_zero, List.getLastD_cons]
    | succ j' =>
      rw [List.take_succ_cons, List.getLastD_cons, List.getD_cons_succ]
      have hj' : j' < rest.length := by simpa using hj
      rw [getLastD_default_irrel (rest.take (j' + 1))
        (List.length_pos.mp (by rw [List.length_take]; omega)) o 0]
      exact ih j' hj'

/-- Claim C4 (confirmed): for a buffer whose newline bytes sit at offsets
`o_1 < o_2 < …`, a lookup at a position between one newline (inclusive)
and the next (exclusive) reports the line numbered after the earlier
newline and the column `pos` minus that newline's offset; a position
before the first newline reports line 0 and column `pos`. -/
theorem C4_index_lookup (s : List Nat) (pos : Nat) :
    (∀ j, j < (nlPos s).length → (nlPos s).getD j 0 ≤ pos →
      (j + 1 < (nlPos s).length → pos < (nlPos s).getD (j + 1) 0) →
      LineCache.run (LineCache.new s) pos = (j + 1, pos - (nlPos s).getD j 0)) ∧
    ((0 < (nlPos s).length → pos < (nlPos s).getD 0 0) →
      LineCache.run (LineCache.new s) pos = (0, pos)) := by
  constructor
  · intro j hj hle hub
    rw [run_char]
    rw [takeWhile_eq_take_of_sorted (nlPos s) j pos (nlPosFrom_sorted s 0) hj hle hub]
    rw [getLastD_take_getD (nlPos s) j hj]
    rw [length_take_of_le (nlPos s) (j + 1) (by omega)]
  · intro h0
    rw [run_char]
    have he : (nlPos s).takeWhile (fun o => decide (o ≤ pos)) = [] := by
      rcases hos : nlPos s with _ | ⟨o, rest⟩
      · rfl
      · rw [List.takeWhile_cons]
        have hlt : pos < o := by
          have h1 := h0 (by rw [hos]; simp)
          rwa [hos, List.getD_cons_zero] at h1
        rw [show (decide (o ≤ pos)) = false from by
          simp only [decide_eq_false_iff_not]; omega]
        simp
    rw [he]
    simp

theorem C4_index_lookup_witness :
    LineCache.run (LineCache.new [97, 10, 98]) 2 =
        (0 + 1, 2 - (nlPos [97, 10, 98]).getD 0 0) ∧
      LineCache.run (LineCache.new [97, 10, 98]) 0 = (0, 0) :=
  ⟨(C4_index_lookup [97, 10, 98] 2).1 0 (by decide) (by decide) (by decide),
    (C4_index_lookup [97, 10, 98] 0).2 (by decide)⟩

/-- Claim C5 (counterexample): position 1 of the buffer "a\nb" holds a
newline byte, and the lookup returns line 1 there, while the number of
newlines strictly before position 1 is 0 — the position is not reported
as still belonging to the line this newline terminates. -/
theorem C5_cex :
    ([97, 10, 98] : List Nat).getD 1 0 = 10 ∧
      (LineCache.run (LineCache.new [97, 10, 98]) 1).1 = 1 ∧
      List.countP (fun b => decide (b = 10)) (([97, 10, 98] : List Nat).take 1) = 0 := by
  decide

/-- Claim C5 (corrected): a position holding a newline byte is reported as
already belonging to the following line: the lookup returns one more than
the number of newlines strictly before the position as the line, and
column 0. -/
theorem C5_newline_pos (s : List Nat) (pos : Nat) (h1 : pos < s.length)
    (h2 : s.getD pos 0 = 10) :
    LineCache.run (LineCache.new s) pos =
      ((s.take pos).countP (fun b => decide (b = 10)) + 1, 0) :=
  run_at_nl s pos h1 h2

theorem C5_newline_pos_witness :
    LineCache.run (LineCache.new [97, 10, 98]) 1 =
      ((([97, 10, 98] : List Nat).take 1).countP (fun b => decide (b = 10)) + 1, 0) :=
  C5_newline_pos [97, 10, 98] 1 (by decide) (by decide)

/-- Claim C6 (counterexample): one call scanning the whole of "a\nb"
returns the column delta 1 — the count after the last newline — although
the whole scanned range holds 2 bytes that are neither newline nor
carriage return. -/
theorem C6_cex :
    (PosTracker.update ⟨0, 0, 0⟩ [97, 10, 98] 3).2 = Ret.ok [97, 10, 98] 1 1 ∧
      List.countP isCol [97, 10, 98] = 2 ∧ (1 : Nat) ≠ 2 := by
  decide

/-- Claim C6 (corrected): a successful update returns the scanned slice
`dat[old..new]`, the number of newline bytes of that slice, and the number
of column-advancing bytes after the last newline of the slice (over the
whole slice only when it has no newline). -/
theorem C6_result_triple (t : PosTracker) (dat : List Nat) (n : Nat)
    (h1 : t.offset ≤ n) (h2 : n ≤ dat.length) :
    (t.update dat n).2 =
      Ret.ok ((dat.drop t.offset).take (n - t.offset))
        (((dat.drop t.offset).take (n - t.offset)).countP (fun b => decide (b = 10)))
        ((afterLastNl ((dat.drop t.offset).take (n - t.offset))).countP isCol) := by
  rw [update_ok t dat n h1 h2]
  show Ret.ok _ (((dat.drop t.offset).take (n - t.offset)).foldl scanStep (0, 0)).1
      (((dat.drop t.offset).take (n - t.offset)).foldl scanStep (0, 0)).2 = _
  rw [scan_eq]

theorem C6_result_triple_witness :
    (PosTracker.update ⟨0, 0, 0⟩ [97, 10, 98] 3).2 =
      Ret.ok ((([97, 10, 98] : List Nat).drop 0).take (3 - 0))
        (((([97, 10, 98] : List Nat).drop 0).take (3 - 0)).countP (fun b => decide (b = 10)))
        ((afterLastNl ((([97, 10, 98] : List Nat).drop 0).take (3 - 0))).countP isCol) :=
  C6_result_triple ⟨0, 0, 0⟩ [97, 10, 98] 3 (by decide) (by decide)

/-- Claim C8 (confirmed): after advancing the default tracker through any
monotone in-bounds sequence of offsets, the stored column equals the
number of bytes that are neither newline nor carriage return among the
consumed bytes after the most recent newline (among all consumed bytes
when none of them is a newline). -/
theorem C8_column_invariant (dat : List Nat) (ps : List Nat)
    (hmono : List.Chain (· ≤ ·) 0 ps) (hlen : ∀ p ∈ ps, p ≤ dat.length) :
    (updateChain dat ps ⟨0, 0, 0⟩).offset = ps.getLastD 0 ∧
      (updateChain dat ps ⟨0, 0, 0⟩).column =
        (afterLastNl (dat.take (ps.getLastD 0))).countP isCol := by
  rw [updateChain_eq dat ps ⟨0, 0, 0⟩ hmono hlen]
  have hlast : ps.getLastD 0 ≤ dat.length := by
    cases ps with
    | nil => simp
    | cons q ps2 => exact hlen _ (mem_of_getLastD (q :: ps2) 0 (by simp))
  show ((PosTracker.update ⟨0, 0, 0⟩ dat (ps.getLastD 0)).1.offset = ps.getLastD 0) ∧ _
  rw [track_state dat (ps.getLastD 0) hlast]
  exact ⟨rfl, rfl⟩

theorem C8_column_invariant_witness :
    (updateChain [97, 10, 98] [1, 3] ⟨0, 0, 0⟩).offset = ([1, 3] : List Nat).getLastD 0 ∧
      (updateChain [97, 10, 98] [1, 3] ⟨0, 0, 0⟩).column =
        (afterLastNl (([97, 10, 98] : List Nat).take
          (([1, 3] : List Nat).getLastD 0))).countP isCol :=
  C8_column_invariant [97, 10, 98] [1, 3]
    (List.Chain.cons (by decide) (List.Chain.cons (by decide) List.Chain.nil)) (by decide)

/-- Claim C1 (counterexample): over the buffer "a\nbc", advancing a fresh
tracker through the offsets 0 and 3 ends in line 1, column 1, while the
index lookup at 3 answers (1, 2): the two components disagree once a line
break has been crossed. -/
theorem C1_cex :
    (updateChain [97, 10, 98, 99] [0, 3] ⟨0, 0, 0⟩).line = 1 ∧
      (updateChain [97, 10, 98, 99] [0, 3] ⟨0, 0, 0⟩).column = 1 ∧
      LineCache.run (LineCache.new [97, 10, 98, 99]) 3 = (1, 2) ∧
      ¬((1 : Nat), (1 : Nat)) = ((1 : Nat), (2 : Nat)) := by
  decide

/-- Claim C1 (corrected): after advancing a fresh tracker through any
monotone in-bounds offset sequence ending at `n`, the index lookup at `n`
is determined by the tracker state: at a newline byte the lookup reports
the next line at column 0; when no newline has been consumed it reports
line 0 and the tracker column plus the consumed carriage returns; once a
newline has been consumed it reports the tracker line, and the tracker
column plus the carriage returns after the last consumed newline plus
one — so the components agree exactly on first-line positions with no
carriage return that do not sit on a newline byte. -/
theorem C1_relationship (dat : List Nat) (ps : List Nat)
    (hmono : List.Chain (· ≤ ·) 0 ps) (hlen : ∀ p ∈ ps, p ≤ dat.length) :
    LineCache.run (LineCache.new dat) (ps.getLastD 0) =
      (if ps.getLastD 0 < dat.length ∧ dat.getD (ps.getLastD 0) 0 = 10 then
        ((updateChain dat ps ⟨0, 0, 0⟩).line + 1, 0)
      else if (updateChain dat ps ⟨0, 0, 0⟩).line = 0 then
        (0, (updateChain dat ps ⟨0, 0, 0⟩).column +
          (afterLastNl (dat.take (ps.getLastD 0))).countP (fun b => decide (b = 13)))
      else
        ((updateChain dat ps ⟨0, 0, 0⟩).line,
          (updateChain dat ps ⟨0, 0, 0⟩).column +
            (afterLastNl (dat.take (ps.getLastD 0))).countP (fun b => decide (b = 13)) + 1)) := by
  have hlast : ps.getLastD 0 ≤ dat.length := by
    cases ps with
    | nil => simp
    | cons q ps2 => exact hlen _ (mem_of_getLastD (q :: ps2) 0 (by simp))
  have ht : updateChain dat ps ⟨0, 0, 0⟩ =
      ⟨ps.getLastD 0, (dat.take (ps.getLastD 0)).countP (fun b => decide (b = 10)),
        (afterLastNl (dat.take (ps.getLastD 0))).countP isCol⟩ := by
    rw [updateChain_eq dat ps ⟨0, 0, 0⟩ hmono hlen]
    exact track_state dat (ps.getLastD 0) hlast
  have hline : (updateChain dat ps ⟨0, 0, 0⟩).line =
      (dat.take (ps.getLastD 0)).countP (fun b => decide (b = 10)) := by rw [ht]
  have hcol : (updateChain dat ps ⟨0, 0, 0⟩).column =
      (afterLastNl (dat.take (ps.getLastD 0))).countP isCol := by rw [ht]
  rw [hline, hcol]
  by_cases hnl : ps.getLastD 0 < dat.length ∧ dat.getD (ps.getLastD 0) 0 = 10
  · rw [if_pos hnl, run_at_nl dat (ps.getLastD 0) hnl.1 hnl.2]
  · rw [if_neg hnl]
    push_neg at hnl
    rw [run_not_nl dat (ps.getLastD 0) hlast hnl]
    by_cases hz : (dat.take (ps.getLastD 0)).countP (fun b => decide (b = 10)) = 0
    · rw [if_pos hz]
      have hno : ∀ b ∈ dat.take (ps.getLastD 0), b ≠ 10 := by
        intro b hb
        have := List.countP_eq_zero.mp hz b hb
        simpa using this
      have hnil : nlPos (dat.take (ps.getLastD 0)) = [] := by
        apply List.length_eq_zero.mp
        rw [show nlPos (dat.take (ps.getLastD 0)) =
          nlPosFrom 0 (dat.take (ps.getLastD 0)) from rfl, nlPosFrom_length]
        exact hz
      have haft : afterLastNl (dat.take (ps.getLastD 0)) = dat.take (ps.getLastD 0) :=
        afterLastNl_no_nl _ hno
      have hsum := countP_split_no_nl (dat.take (ps.getLastD 0)) hno
      have hlen' : (dat.take (ps.getLastD 0)).length = ps.getLastD 0 :=
        length_take_of_le dat (ps.getLastD 0) hlast
      rw [hnil, hz, haft]
      simp only [Prod.mk.injEq]
      refine ⟨trivial, ?_⟩
      simp only [List.getLastD_nil]
      omega
    · rw [if_neg hz]
      have hnil : nlPos (dat.take (ps.getLastD 0)) ≠ [] := by
        intro hc
        apply hz
        rw [← nlPosFrom_length (dat.take (ps.getLastD 0)) 0]
        rw [show nlPos (dat.take (ps.getLastD 0)) =
          nlPosFrom 0 (dat.take (ps.getLastD 0)) from rfl] at hc
        rw [hc]
        rfl
      have hsplit := nlPos_last_split (dat.take (ps.getLastD 0)) hnil
      have hsum := countP_split_no_nl (afterLastNl (dat.take (ps.getLastD 0)))
        (mem_afterLastNl _)
      have hlen' : (dat.take (ps.getLastD 0)).length = ps.getLastD 0 :=
        length_take_of_le dat (ps.getLastD 0) hlast
      simp only [Prod.mk.injEq]
      refine ⟨trivial, ?_⟩
      omega

theorem C1_relationship_witness :
    LineCache.run (LineCache.new [97, 10, 98, 99]) (([0, 3] : List Nat).getLastD 0) =
      (1, 2) := by
  have h := C1_relationship [97, 10, 98, 99] [0, 3]
    (List.Chain.cons (by decide) (List.Chain.cons (by decide) List.Chain.nil)) (by decide)
  revert h
  decide

lemma take_append_add : ∀ (u w : List Nat) (k : Nat),
    (u ++ w).take (u.length + k) = u ++ w.take k := by
  intro u
  induction u with
  | nil => intro w k; simp
  | cons a u ih =>
    intro w k
    rw [List.cons_append, List.length_cons]
    rw [show u.length + 1 + k = (u.length + k) + 1 from by omega]
    rw [List.take_succ_cons, ih, List.cons_append]

lemma take_append_cons_split (u : List Nat) (c : Nat) (v : List Nat) (k : Nat) :
    (u ++ c :: v).take (u.length + 1 + k) = u ++ c :: v.take k := by
  rw [show u.length + 1 + k = u.length + (k + 1) from by omega, take_append_add,
    List.take_succ_cons]

lemma scan_cr_skip (u w : List Nat) :
    (u ++ 13 :: w).foldl scanStep (0, 0) = (u ++ w).foldl scanStep (0, 0) := by
  rw [List.foldl_append, List.foldl_append, List.foldl_cons]
  congr 1

lemma cacheFrom_length : ∀ (os : List Nat) (b : Nat), (cacheFrom b os).length = os.length := by
  intro os
  induction os with
  | nil => intro b; rfl
  | cons o rest ih =>
    intro b
    rw [show cacheFrom b (o :: rest) = (b + 1, o) :: cacheFrom (b + 1) rest from rfl,
      List.length_cons, List.length_cons, ih]

lemma getLastD_append_cons (c : Nat) (C : List Nat) : ∀ (A : List Nat) (d : Nat),
    (A ++ c :: C).getLastD d = C.getLastD c := by
  intro A
  induction A with
  | nil => intro d; rw [List.nil_append, List.getLastD_cons]
  | cons a A ih => intro d; rw [List.cons_append, List.getLastD_cons, ih]

lemma getLastD_map_add_one : ∀ (l : List Nat) (d : Nat),
    (l.map (fun o => o + 1)).getLastD (d + 1) = l.getLastD d + 1 := by
  intro l
  induction l with
  | nil => intro d; rfl
  | cons a l ih => intro d; rw [List.map_cons, List.getLastD_cons, List.getLastD_cons, ih]

/-- Claim C7 (counterexample): a lookup just past the carriage return of
"a\rb" reports column 3 at the buffer end, while the corresponding lookup
on "ab" (the carriage return removed) reports column 2 — the index counts
the carriage return in its columns, although the tracker reports column 2
for both buffers. -/
theorem C7_cex :
    LineCache.run (LineCache.new [97, 13, 98]) 3 = (0, 3) ∧
      LineCache.run (LineCache.new [97, 98]) 2 = (0, 2) ∧
      (PosTracker.update ⟨0, 0, 0⟩ [97, 13, 98] 3).1.column = 2 ∧
      (PosTracker.update ⟨0, 0, 0⟩ [97, 98] 2).1.column = 2 ∧
      (3 : Nat) ≠ 2 := by
  decide

/-- Claim C7 (corrected): a carriage return is neutral for the tracker —
dropping it from the buffer changes neither the line nor the column the
tracker reports at corresponding offsets — and it is never counted as a
line break by either component (the index keeps exactly as many entries
without it); for the index a `\r\n` pair behaves exactly like a lone `\n`
at corresponding positions — but a lone carriage return does count one
column in index lookups. -/
theorem C7_cr_neutrality (u v : List Nat) :
    (∀ k, k ≤ v.length →
      ((PosTracker.update ⟨0, 0, 0⟩ (u ++ 13 :: v) (u.length + 1 + k)).1.line =
          (PosTracker.update ⟨0, 0, 0⟩ (u ++ v) (u.length + k)).1.line ∧
        (PosTracker.update ⟨0, 0, 0⟩ (u ++ 13 :: v) (u.length + 1 + k)).1.column =
          (PosTracker.update ⟨0, 0, 0⟩ (u ++ v) (u.length + k)).1.column)) ∧
    (LineCache.new (u ++ 13 :: v)).entries.length = (LineCache.new (u ++ v)).entries.length ∧
    (∀ p, LineCache.run (LineCache.new (u ++ 13 :: 10 :: v))
        (if p < u.length then p else p + 1) =
      LineCache.run (LineCache.new (u ++ 10 :: v)) p) := by
  refine ⟨?_, ?_, ?_⟩
  · intro k hk
    have h1 : (PosTracker.update ⟨0, 0, 0⟩ (u ++ 13 :: v) (u.length + 1 + k)).1 =
        applyScan ⟨0, 0, 0⟩ (u ++ 13 :: v.take k) (u.length + 1 + k) := by
      rw [update_ok ⟨0, 0, 0⟩ (u ++ 13 :: v) (u.length + 1 + k) (Nat.zero_le _)
        (by simp only [List.length_append, List.length_cons]; omega)]
      show applyScan ⟨0, 0, 0⟩ (((u ++ 13 :: v).drop 0).take (u.length + 1 + k - 0)) _ = _
      rw [List.drop_zero, Nat.sub_zero, take_append_cons_split]
    have h2 : (PosTracker.update ⟨0, 0, 0⟩ (u ++ v) (u.length + k)).1 =
        applyScan ⟨0, 0, 0⟩ (u ++ v.take k) (u.length + k) := by
      rw [update_ok ⟨0, 0, 0⟩ (u ++ v) (u.length + k) (Nat.zero_le _)
        (by simp only [List.length_append]; omega)]
      show applyScan ⟨0, 0, 0⟩ (((u ++ v).drop 0).take (u.length + k - 0)) _ = _
      rw [List.drop_zero, Nat.sub_zero, take_append_add]
    rw [h1, h2]
    unfold applyScan
    rw [scan_cr_skip u (v.take k)]
    exact ⟨rfl, rfl⟩
  · rw [new_eq, new_eq]
    show (cacheFrom 0 (nlPos (u ++ 13 :: v))).length = (cacheFrom 0 (nlPos (u ++ v))).length
    rw [cacheFrom_length, cacheFrom_length]
    show (nlPosFrom 0 (u ++ 13 :: v)).length = (nlPosFrom 0 (u ++ v)).length
    rw [nlPosFrom_append, nlPosFrom_append]
    rw [show nlPosFrom (0 + u.length) (13 :: v) = nlPosFrom (0 + u.length + 1) v from by
      simp [nlPosFrom]]
    rw [nlPosFrom_shift]
    simp
  · intro p
    have hA : ∀ a ∈ nlPos u, a < u.length := by
      intro a ha
      have := nlPosFrom_lt u 0 a ha
      omega
    have hL13 : nlPos (u ++ 13 :: 10 :: v) =
        nlPos u ++ (u.length + 1) :: (nlPosFrom (u.length + 1) v).map (fun o => o + 1) := by
      show nlPosFrom 0 (u ++ 13 :: 10 :: v) = _
      rw [nlPosFrom_append]
      congr 1
      rw [show nlPosFrom (0 + u.length) (13 :: 10 :: v) =
        (0 + u.length + 1) :: nlPosFrom (0 + u.length + 1 + 1) v from by simp [nlPosFrom]]
      rw [nlPosFrom_shift]
      simp
    have hL10 : nlPos (u ++ 10 :: v) = nlPos u ++ u.length :: nlPosFrom (u.length + 1) v := by
      show nlPosFrom 0 (u ++ 10 :: v) = _
      rw [nlPosFrom_append]
      congr 1
      rw [show nlPosFrom (0 + u.length) (10 :: v) =
        (0 + u.length) :: nlPosFrom (0 + u.length + 1) v from by simp [nlPosFrom]]
      simp
    rw [run_char, run_char, hL13, hL10]
    by_cases hp : p < u.length
    · rw [if_pos hp]
      rw [takeWhile_append_stop (u.length + 1) _
        (by simp only [decide_eq_false_iff_not]; omega) (nlPos u)]
      rw [takeWhile_append_stop u.length _
        (by simp only [decide_eq_false_iff_not]; omega) (nlPos u)]
    · rw [if_neg hp]
      push_neg at hp
      rw [takeWhile_append_all (nlPos u) _ (fun a ha => by
        simp only [decide_eq_true_eq]
        have := hA a ha
        omega)]
      rw [takeWhile_append_all (nlPos u) _ (fun a ha => by
        simp only [decide_eq_true_eq]
        have := hA a ha
        omega)]
      rw [List.takeWhile_cons_of_pos (by simp only [decide_eq_true_eq]; omega)]
      rw [List.takeWhile_cons_of_pos (by simp only [decide_eq_true_eq]; omega)]
      rw [takeWhile_map_add_one]
      rw [takeWhile_congr (nlPosFrom (u.length + 1) v)
        (fun a _ => show (decide (a + 1 ≤ p + 1)) = decide (a ≤ p) from
          decide_eq_decide.mpr (by omega))]
      rw [getLastD_append_cons, getLastD_append_cons, getLastD_map_add_one]
      simp only [Prod.mk.injEq, List.length_append, List.length_cons, List.length_map]
      exact ⟨trivial, by omega⟩

theorem C7_cr_neutrality_witness :
    ((PosTracker.update ⟨0, 0, 0⟩ ([97] ++ 13 :: [98])
          (([97] : List Nat).length + 1 + 1)).1.line =
        (PosTracker.update ⟨0, 0, 0⟩ ([97] ++ [98])
          (([97] : List Nat).length + 1)).1.line ∧
      (PosTracker.update ⟨0, 0, 0⟩ ([97] ++ 13 :: [98])
          (([97] : List Nat).length + 1 + 1)).1.column =
        (PosTracker.update ⟨0, 0, 0⟩ ([97] ++ [98])
          (([97] : List Nat).length + 1)).1.column) ∧
    (LineCache.new ([97] ++ 13 :: [98])).entries.length =
      (LineCache.new ([97] ++ [98])).entries.length ∧
    LineCache.run (LineCache.new ([97] ++ 13 :: 10 :: [98]))
        (if 2 < ([97] : List Nat).length then 2 else 2 + 1) =
      LineCache.run (LineCache.new ([97] ++ 10 :: [98])) 2 :=
  ⟨(C7_cr_neutrality [97] [98]).1 1 (by decide),
    (C7_cr_neutrality [97] [98]).2.1,
    (C7_cr_neutrality [97] [98]).2.2 2⟩
